import Mathlib

/-!
Verification of the value-object core of `src/ini/ini_valueobj.c` (ding-libs).

The shallow embedding below models byte strings as `List Char`.  The fragment
store (a `ref_array` of line pointers plus a parallel `ref_array` of lengths)
is modelled as a single `List (List Char)`: each element carries its exact
bytes, so the parallel length array is the list of `List.length`s and is kept
implicit.  The growable `simplebuffer` collaborator is modelled as a
`List Char`, with `simplebuffer_add_raw buf ptr n` being `buf ++ ptr.take n`.

The folding loop of `value_fold` re-processes the breaking whitespace
character (`resume_place = next_place` in the C source), so on an input whose
first byte is a space or tab it never advances and never terminates.  To keep
every definition executable and total, the loops carry explicit fuel
(`S.length + 2` outer iterations suffice for every terminating run of the C
code), and a run that exhausts its fuel returns `none` — i.e. `none` marks the
inputs on which the C loop does not terminate.
-/

namespace IniValue

/-- Whitespace test used throughout `ini_valueobj.c`: the folding code breaks
at `' '` and `'\t'` only (see `save_portion` and the scan in `value_fold`). -/
def is_space (c : Char) : Bool := c == ' ' || c == '\t'

/-- Byte of `S` at offset `p`; offsets are always in range where this is used
(the C code indexes `buf[i]` for `i < len`). -/
def char_at (S : List Char) (p : Nat) : Char := S.getD p ' '

/-- Embeds `save_portion` (src/ini/ini_valueobj.c:110-168): append the portion
to the fragment list, prepending one synthetic space when the portion does not
already start with a space or tab, is non-empty, and is not the first
fragment.  The parallel length array always receives the adjusted length, so
it stays the list of fragment lengths and is left implicit. -/
def save_portion (acc : List (List Char)) (buf : List Char) : List (List Char) :=
  if is_space (buf.headD ' ') = false ∧ buf ≠ [] ∧ acc ≠ [] then
    acc ++ [(' ' : Char) :: buf]
  else
    acc ++ [buf]

/-- Result of one run of the inner `for (i = resume_place; i <= len; i++)`
scan of `value_fold` (src/ini/ini_valueobj.c:222-283). -/
inductive ScanResult where
  | brk (fold_len next_place : Nat) (done : Bool)
  | natural (next_place : Nat)
deriving Repr, DecidableEq

/-- The inner scan of `value_fold`.  `best` is `best_place` (already shifted
by `start_place`), `start` is `start_place`, `i` the loop counter, `fp` the
running `fold_place` candidate and `np` the running `next_place`.  A `brk`
result is the `break` out of the loop (carrying `fold_len`, the final
`next_place`, and the `done` flag); `natural` is the loop running past
`i = len` (which can only happen after `i = len` set `done = 1` and took the
non-breaking branch).  `fuel` is `S.length + 1 - i` at every call from
`fold_loop`, exactly the number of remaining iterations, so the fuel-exhausted
fallback is never reached from `fold_loop`. -/
def fold_scan (S : List Char) (best start : Nat) :
    Nat → Nat → Nat → Nat → ScanResult
  | 0, _i, _fp, np => ScanResult.natural np
  | fuel + 1, i, fp, _np =>
    if _h : i < S.length then
      if is_space (char_at S i) = true ∨ (best = 0 ∧ i = 0) then
        if best < i ∨ i = 0 then
          ScanResult.brk (if fp = start ∧ i ≠ 0 then i - start else fp - start) i false
        else
          fold_scan S best start fuel (i + 1) i i
      else
        fold_scan S best start fuel (i + 1) fp _np
    else
      if best < S.length ∨ S.length = 0 then
        ScanResult.brk
          (if fp = start ∧ S.length ≠ 0 then S.length - start else fp - start)
          S.length true
      else
        ScanResult.natural S.length

/-- First-line width budget of `value_fold` (src/ini/ini_valueobj.c:205-210):
`fold_bound - key_len - 3` when that is positive, else `0`. -/
def first_budget (key_len fold_bound : Nat) : Nat :=
  if key_len + 3 < fold_bound then fold_bound - (key_len + 3) else 0

/-- Width budget of the fragment with index `j`: the first-line budget for the
first fragment, the raw boundary for every later fragment. -/
def frag_budget (key_len fold_bound j : Nat) : Nat :=
  if j = 0 then first_budget key_len fold_bound else fold_bound

/-- The outer `while (!done)` loop of `value_fold`
(src/ini/ini_valueobj.c:203-297).  One fuel unit per iteration; `idx` is the
line counter, `acc` the fragments emitted so far (the arrays were reset before
the loop, so the initial `acc` is `[]`). -/
def fold_loop (S : List Char) (fold_bound key_len : Nat) :
    Nat → Nat → Nat → List (List Char) → Nat → Option (List (List Char))
  | _start, _resume, _idx, _acc, 0 => none
  | start, resume, idx, acc, fuel + 1 =>
    let best := (if idx = 0 then first_budget key_len fold_bound else fold_bound) + start
    match fold_scan S best start (S.length + 1 - resume) resume start start with
    | ScanResult.natural np =>
        some (save_portion acc ((S.drop start).take (np - start)))
    | ScanResult.brk fold_len np done =>
        let acc2 := save_portion acc ((S.drop start).take fold_len)
        if done then
          some (save_portion acc2 ((S.drop (start + fold_len)).take (np - (start + fold_len))))
        else
          fold_loop S fold_bound key_len (start + fold_len) np (idx + 1) acc2 fuel

/-- Boundary normalization of `value_fold` (src/ini/ini_valueobj.c:201):
`if (fold_bound == 0) fold_bound++`. -/
def normalize_bound (fold_bound : Nat) : Nat :=
  if fold_bound = 0 then fold_bound + 1 else fold_bound

/-- Embeds `value_fold` (src/ini/ini_valueobj.c:171-301).  `none` means the C
loop does not terminate on this input (it keeps re-processing offset `0`);
every terminating run of the C loop performs at most `S.length + 2`
iterations, which the fuel covers. -/
def value_fold (S : List Char) (key_len fold_bound : Nat) :
    Option (List (List Char)) :=
  fold_loop S (normalize_bound fold_bound) key_len 0 0 0 [] (S.length + 2)

/-- Embeds `value_unfold` (src/ini/ini_valueobj.c:57-107): concatenate all
fragments in order into one buffer. -/
def value_unfold (raw_lines : List (List Char)) : List Char :=
  raw_lines.foldl (fun acc part => acc ++ part) []

/-- Modelled from the spec: the Canonical Buffer collaborator's
`append_terminator` (`simplebuffer_add_cr`, whose body is outside this unit)
emits a single logical line terminator; we use `'\n'`. -/
def line_term : Char := '\n'

/-- Append each line followed by one line terminator, in order — the shape of
both per-line loops of `value_serialize`. -/
def add_lines_with_term (sb : List Char) (lines : List (List Char)) : List Char :=
  lines.foldl (fun b l => b ++ l ++ [line_term]) sb

/-- The value object (`struct value_obj`, src/ini/ini_valueobj.c:32-41) with
the fragment bytes/lengths pair collapsed into one list of fragments and the
comment collaborator modelled as its list of lines. -/
structure value_obj where
  raw_lines : List (List Char)
  unfolded : List Char
  origin : Nat
  line : Nat
  keylen : Nat
  boundary : Nat
  ic : Option (List (List Char))
deriving Repr, DecidableEq

/-- Embeds `value_create_new` (src/ini/ini_valueobj.c:486-570): copy `length`
bytes of the input into the canonical buffer, then derive the fragments by
folding.  `none` covers the runs on which the fold loop does not terminate. -/
def value_create_new (strvalue : List Char) (length origin key_len boundary : Nat)
    (ic : Option (List (List Char))) : Option value_obj :=
  let oneline := strvalue.take length
  match value_fold oneline key_len boundary with
  | none => none
  | some frags =>
      some { raw_lines := frags, unfolded := oneline, origin := origin, line := 0,
             keylen := key_len, boundary := boundary, ic := ic }

/-- Embeds `value_update` (src/ini/ini_valueobj.c:653-711): replace the
canonical buffer with `length` bytes of the new value, replace `origin` and
`boundary`, then refold into the fragment arrays (which `value_fold` resets
first). -/
def value_update (vo : value_obj) (value : List Char) (length origin boundary : Nat) :
    Option value_obj :=
  let oneline := value.take length
  match value_fold oneline vo.keylen boundary with
  | none => none
  | some frags =>
      some { raw_lines := frags, unfolded := oneline, origin := origin,
             line := vo.line, keylen := vo.keylen, boundary := boundary, ic := vo.ic }

/-- Embeds `value_set_keylen` (src/ini/ini_valueobj.c:622-649): store the new
key length, then refold the existing canonical buffer at the existing
boundary. -/
def value_set_keylen (vo : value_obj) (key_len : Nat) : Option value_obj :=
  match value_fold vo.unfolded key_len vo.boundary with
  | none => none
  | some frags =>
      some { vo with keylen := key_len, raw_lines := frags }

/-- Embeds `value_serialize` (src/ini/ini_valueobj.c:758-901): comment lines
(each with a terminator), then `keylen` bytes of the key, then `" = "`, then
each fragment with a terminator.  Note the key portion is
`key.take vo.keylen`: the stored `keylen` field, not the length of the key
argument, decides how many key bytes are written. -/
def value_serialize (vo : value_obj) (key : List Char) : List Char :=
  let sb0 : List Char := []
  let sb1 := match vo.ic with
    | none => sb0
    | some comment => add_lines_with_term sb0 comment
  let sb2 := sb1 ++ key.take vo.keylen
  let sb3 := sb2 ++ [' ', '=', ' ']
  add_lines_with_term sb3 vo.raw_lines

/-! ### Basic lemmas about the serializer shape -/

theorem add_lines_with_term_eq_join (lines : List (List Char)) :
    ∀ sb : List Char,
      add_lines_with_term sb lines =
        sb ++ (lines.map (fun l => l ++ [line_term])).flatten := by
  induction lines with
  | nil => intro sb; simp [add_lines_with_term]
  | cons l rest ih =>
      intro sb
      show add_lines_with_term (sb ++ l ++ [line_term]) rest = _
      rw [ih]
      simp

/-! ### Helper lemmas about portions (contiguous slices) and `save_portion` -/

theorem slice_length_le (S : List Char) (s n : Nat) :
    ((S.drop s).take n).length ≤ n := by
  rw [List.length_take]
  exact Nat.min_le_left _ _

theorem slice_headD (S : List Char) (s n : Nat)
    (h : (S.drop s).take n ≠ []) :
    ((S.drop s).take n).headD ' ' = char_at S s ∧ s < S.length := by
  have hn : n ≠ 0 := by rintro rfl; simp at h
  have hs : s < S.length := by
    by_contra hs
    rw [List.drop_eq_nil_of_le (by omega)] at h
    simp at h
  have hd : S.drop s = S[s] :: S.drop (s + 1) := List.drop_eq_getElem_cons hs
  obtain ⟨m, rfl⟩ := Nat.exists_eq_succ_of_ne_zero hn
  refine ⟨?_, hs⟩
  rw [hd, List.take_succ_cons, List.headD_cons, char_at, List.getD_eq_getElem S ' ' hs]

theorem mem_slice (S : List Char) (s n : Nat) (c : Char)
    (h : c ∈ (S.drop s).take n) :
    ∃ p, s ≤ p ∧ p < s + n ∧ c = char_at S p := by
  obtain ⟨i, hi, hc⟩ := List.mem_iff_getElem.mp h
  have hb : i < n ∧ i < S.length - s := by
    rw [List.length_take, List.length_drop] at hi; omega
  refine ⟨s + i, by omega, by omega, ?_⟩
  rw [← hc, List.getElem_take, List.getElem_drop, char_at,
    List.getD_eq_getElem S ' ' (by omega)]

theorem mem_slice_drop_one (S : List Char) (s n : Nat) (c : Char)
    (h : c ∈ ((S.drop s).take n).drop 1) :
    ∃ p, s < p ∧ p < s + n ∧ c = char_at S p := by
  rw [List.drop_take, List.drop_drop] at h
  obtain ⟨p, hp1, hp2, hcp⟩ := mem_slice S (s + 1) (n - 1) c h
  exact ⟨p, by omega, by omega, hcp⟩

theorem slice_full (S : List Char) (s : Nat) :
    (S.drop s).take (S.length - s) = S.drop s := by
  apply List.take_of_length_le
  rw [List.length_drop]

theorem save_portion_eq (acc : List (List Char)) (r : List Char) :
    save_portion acc r = acc ++ [r] ∨
      (save_portion acc r = acc ++ [(' ' : Char) :: r] ∧
        is_space (r.headD ' ') = false ∧ r ≠ [] ∧ acc ≠ []) := by
  unfold save_portion
  split
  · next h => exact Or.inr ⟨rfl, h.1, h.2.1, h.2.2⟩
  · exact Or.inl rfl

theorem length_save_portion (acc : List (List Char)) (r : List Char) :
    (save_portion acc r).length = acc.length + 1 := by
  rcases save_portion_eq acc r with h | ⟨h, _⟩ <;> rw [h] <;> simp

theorem save_portion_getD_lt (acc : List (List Char)) (r : List Char) (j : Nat)
    (hj : j < acc.length) :
    (save_portion acc r).getD j [] = acc.getD j [] := by
  rcases save_portion_eq acc r with h | ⟨h, _⟩ <;> rw [h] <;>
    rw [List.getD_append _ _ _ _ hj]

theorem save_portion_getD_last (acc : List (List Char)) (r : List Char) :
    (save_portion acc r).getD acc.length [] = r ∨
      ((save_portion acc r).getD acc.length [] = (' ' : Char) :: r ∧
        is_space (r.headD ' ') = false ∧ r ≠ [] ∧ acc ≠ []) := by
  rcases save_portion_eq acc r with h | ⟨h, h2⟩
  · left
    rw [h, List.getD_append_right acc [r] [] acc.length (le_refl _), Nat.sub_self]
    rfl
  · right
    refine ⟨?_, h2⟩
    rw [h, List.getD_append_right acc [(' ' : Char) :: r] [] acc.length (le_refl _),
      Nat.sub_self]
    rfl

/-! ### Per-fragment width property -/

/-- A fragment is "one unbreakable piece": at most its first byte (the break
or synthetic space) aside, it contains no space or tab, so it was emitted
whole and was never split inside a word. -/
abbrev token_whole (f : List Char) : Prop :=
  ∀ c ∈ f.drop 1, is_space c = false

/-- Width contract of fragment `j` of a fold at (already normalized) boundary
`fb`: it fits its budget, or it is a single unbreakable token (with at most a
leading break/synthetic space) emitted whole, or — when the first-line budget
is zero, which makes fragment `0` empty — fragment `1` may exceed the
boundary by exactly the one synthetic space prepended by `save_portion`. -/
abbrev frag_fits (key_len fb j : Nat) (f : List Char) : Prop :=
  f.length ≤ frag_budget key_len fb j ∨ token_whole f ∨
    (j = 1 ∧ first_budget key_len fb = 0 ∧ f.length ≤ fb + 1)

/-! ### What one inner scan of `value_fold` guarantees -/

/-- Postcondition of `fold_scan` when started at `i = resume`, `fp = np =
start`, provided `start ≤ resume ≤ S.length` and `(start, resume)` contains
no whitespace. -/
def scan_post (S : List Char) (best start : Nat) : ScanResult → Prop
  | ScanResult.natural np =>
      np = S.length ∧ S.length ≤ best ∧ S.length ≠ 0
  | ScanResult.brk fl np d =>
      start + fl ≤ np ∧ np ≤ S.length ∧
      (d = true → np = S.length) ∧
      (d = false → np < S.length) ∧
      (np = 0 → best = 0 ∨ is_space (char_at S 0) = true) ∧
      (start + fl ≤ best ∨
        ∀ p, start < p → p < start + fl → is_space (char_at S p) = false) ∧
      (start + fl = S.length ∨ is_space (char_at S (start + fl)) = true ∨
        (np = 0 ∧ start = 0 ∧ fl = 0)) ∧
      (∀ p, start + fl < p → p < np → is_space (char_at S p) = false)

theorem fold_scan_sound (S : List Char) (best start : Nat) :
    ∀ fuel i fp np, S.length + 1 ≤ fuel + i → i ≤ S.length → start ≤ i →
      start ≤ fp → fp ≤ i → fp ≤ best →
      (fp = start ∨ (is_space (char_at S fp) = true ∧ fp ≠ 0)) →
      (∀ p, fp < p → p < i → is_space (char_at S p) = false) →
      scan_post S best start (fold_scan S best start fuel i fp np) := by
  intro fuel
  induction fuel with
  | zero =>
      intro i fp np hfuel hi _ _ _ _ _ _
      exact absurd hi (by omega)
  | succ n ih =>
      intro i fp np hfuel hi hsi hsf hfi hfb hfp hnw
      by_cases hil : i < S.length
      · simp only [fold_scan]
        rw [dif_pos hil]
        by_cases hcond : is_space (char_at S i) = true ∨ (best = 0 ∧ i = 0)
        · rw [if_pos hcond]
          by_cases hbrk : best < i ∨ i = 0
          · rw [if_pos hbrk]
            by_cases hfl : fp = start ∧ i ≠ 0
            · rw [if_pos hfl]
              obtain ⟨hfpstart, hi0⟩ := hfl
              have he : start + (i - start) = i := by omega
              refine ⟨by omega, by omega, ?_, ?_, ?_, ?_, ?_, ?_⟩
              · intro hd; exact absurd hd (by decide)
              · intro _; exact hil
              · intro h0; exact absurd h0 hi0
              · right
                intro p hp1 hp2
                rw [he] at hp2
                exact hnw p (by omega) hp2
              · right; left
                rw [he]
                rcases hcond with hws | ⟨_, h0⟩
                · exact hws
                · exact absurd h0 hi0
              · intro p hp1 hp2
                rw [he] at hp1
                exact absurd hp2 (by omega)
            · rw [if_neg hfl]
              by_cases hi0 : i = 0
              · subst hi0
                have hs0 : start = 0 := by omega
                have hf0 : fp = 0 := by omega
                refine ⟨by omega, by omega, ?_, ?_, ?_, ?_, ?_, ?_⟩
                · intro hd; exact absurd hd (by decide)
                · intro _; exact hil
                · intro _
                  rcases hcond with hws | ⟨hb0, _⟩
                  · right; exact hws
                  · left; exact hb0
                · left; omega
                · right; right; exact ⟨rfl, hs0, by omega⟩
                · intro p hp1 hp2
                  exact absurd hp2 (by omega)
              · have hfps : fp ≠ start := fun hcontra => hfl ⟨hcontra, hi0⟩
                rcases hfp with hcontra | ⟨hws, hfp0⟩
                · exact absurd hcontra hfps
                have he : start + (fp - start) = fp := by omega
                refine ⟨by omega, by omega, ?_, ?_, ?_, ?_, ?_, ?_⟩
                · intro hd; exact absurd hd (by decide)
                · intro _; exact hil
                · intro h0; exact absurd h0 hi0
                · left; omega
                · right; left
                  rw [he]
                  exact hws
                · intro p hp1 hp2
                  rw [he] at hp1
                  exact hnw p hp1 hp2
          · rw [if_neg hbrk]
            push_neg at hbrk
            apply ih (i + 1) i i
            · omega
            · omega
            · omega
            · exact hsi
            · omega
            · exact hbrk.1
            · right
              refine ⟨?_, hbrk.2⟩
              rcases hcond with hws | ⟨_, h0⟩
              · exact hws
              · exact absurd h0 hbrk.2
            · intro p hp1 hp2
              exact absurd hp2 (by omega)
        · rw [if_neg hcond]
          apply ih (i + 1) fp np
          · omega
          · omega
          · omega
          · exact hsf
          · omega
          · exact hfb
          · exact hfp
          · intro p hp1 hp2
            by_cases hpi : p = i
            · subst hpi
              rcases (is_space (char_at S p)).eq_false_or_eq_true with hb | hb
              · exact absurd (Or.inl hb) hcond
              · exact hb
            · exact hnw p hp1 (by omega)
      · have hieq : i = S.length := by omega
        simp only [fold_scan]
        rw [dif_neg (by omega : ¬ i < S.length)]
        by_cases hend : best < S.length ∨ S.length = 0
        · rw [if_pos hend]
          by_cases hfl : fp = start ∧ S.length ≠ 0
          · rw [if_pos hfl]
            obtain ⟨hfpstart, hlen0⟩ := hfl
            have he : start + (S.length - start) = S.length := by omega
            refine ⟨by omega, by omega, fun _ => rfl, ?_, ?_, ?_, ?_, ?_⟩
            · intro hd; exact absurd hd (by decide)
            · intro h0; exact absurd h0 hlen0
            · right
              intro p hp1 hp2
              rw [he] at hp2
              exact hnw p (by omega) (by omega)
            · left; exact he
            · intro p hp1 hp2
              rw [he] at hp1
              exact absurd hp2 (by omega)
          · rw [if_neg hfl]
            by_cases hlen0 : S.length = 0
            · refine ⟨by omega, by omega, fun _ => rfl, ?_, ?_, ?_, ?_, ?_⟩
              · intro hd; exact absurd hd (by decide)
              · intro _
                right
                rw [show S = [] from List.length_eq_zero.mp hlen0]
                decide
              · left; omega
              · left; omega
              · intro p hp1 hp2
                exact absurd hp2 (by omega)
            · have hfps : fp ≠ start := fun hcontra => hfl ⟨hcontra, hlen0⟩
              rcases hfp with hcontra | ⟨hws, hfp0⟩
              · exact absurd hcontra hfps
              have he : start + (fp - start) = fp := by omega
              refine ⟨by omega, by omega, fun _ => rfl, ?_, ?_, ?_, ?_, ?_⟩
              · intro hd; exact absurd hd (by decide)
              · intro h0; exact absurd h0 hlen0
              · left; omega
              · right; left
                rw [he]
                exact hws
              · intro p hp1 hp2
                rw [he] at hp1
                exact hnw p hp1 (by omega)
        · rw [if_neg hend]
          push_neg at hend
          exact ⟨rfl, hend.1, hend.2⟩

/-! ### Claim theorems -/

/-- Claim C8: folding with boundary `0` produces exactly the same fragment
sequence as folding with boundary `1`, for every canonical string and key
length — the fold normalizes a zero boundary to `1` before doing anything
else. -/
theorem value_fold_boundary_zero_eq_one (S : List Char) (k : Nat) :
    value_fold S k 0 = value_fold S k 1 := by
  simp [value_fold, normalize_bound]

/-! ### Step lemmas for the outer fold loop -/

theorem fold_loop_succ_natural (S : List Char) (fb k start resume idx : Nat)
    (acc : List (List Char)) (n np : Nat)
    (hscan : fold_scan S ((if idx = 0 then first_budget k fb else fb) + start) start
        (S.length + 1 - resume) resume start start = ScanResult.natural np) :
    fold_loop S fb k start resume idx acc (n + 1) =
      some (save_portion acc ((S.drop start).take (np - start))) := by
  simp only [fold_loop]
  rw [hscan]

theorem fold_loop_succ_brk (S : List Char) (fb k start resume idx : Nat)
    (acc : List (List Char)) (n fl np : Nat) (d : Bool)
    (hscan : fold_scan S ((if idx = 0 then first_budget k fb else fb) + start) start
        (S.length + 1 - resume) resume start start = ScanResult.brk fl np d) :
    fold_loop S fb k start resume idx acc (n + 1) =
      if d = true then
        some (save_portion (save_portion acc ((S.drop start).take fl))
          ((S.drop (start + fl)).take (np - (start + fl))))
      else
        fold_loop S fb k (start + fl) np (idx + 1)
          (save_portion acc ((S.drop start).take fl)) n := by
  simp only [fold_loop]
  rw [hscan]

/-- Loop invariant of `value_fold`: every fragment the loop has emitted or
will emit satisfies `frag_fits`.  `acc.length` doubles as the C `idx`
counter. -/
theorem fold_loop_fits (S : List Char) (fb k : Nat) (hfb : 1 ≤ fb) :
    ∀ fuel start resume acc L,
      resume ≤ S.length → start ≤ resume →
      (∀ p, start < p → p < resume → is_space (char_at S p) = false) →
      (start = S.length ∨ is_space (char_at S start) = true ∨
        (start = 0 ∧ (acc = [] ∨ (acc = [[]] ∧ first_budget k fb = 0)))) →
      (∀ j, j < acc.length → frag_fits k fb j (acc.getD j [])) →
      fold_loop S fb k start resume acc.length acc fuel = some L →
      ∀ j, j < L.length → frag_fits k fb j (L.getD j []) := by
  intro fuel
  induction fuel with
  | zero =>
      intro start resume acc L _ _ _ _ _ h
      exact Option.noConfusion h
  | succ n ih =>
      intro start resume acc L hres hsr hnw hhd hacc h
      have hpost := fold_scan_sound S
        ((if acc.length = 0 then first_budget k fb else fb) + start) start
        (S.length + 1 - resume) resume start start (by omega) hres hsr
        (le_refl start) hsr (Nat.le_add_left start _) (Or.inl rfl) hnw
      cases hscan : fold_scan S
          ((if acc.length = 0 then first_budget k fb else fb) + start) start
          (S.length + 1 - resume) resume start start with
      | natural np =>
          rw [hscan] at hpost
          obtain ⟨hnp, hlenle, hlen0⟩ := hpost
          rw [fold_loop_succ_natural S fb k start resume acc.length acc n np hscan] at h
          injection h with hL
          subst hL
          subst hnp
          intro j hj
          rw [length_save_portion] at hj
          by_cases hjl : j < acc.length
          · rw [save_portion_getD_lt _ _ _ hjl]
            exact hacc j hjl
          · have hje : j = acc.length := by omega
            subst hje
            rcases save_portion_getD_last acc ((S.drop start).take (S.length - start)) with
              hg | ⟨hg, hhead2, hne2, haccne2⟩
            · rw [hg]
              left
              simp only [frag_budget]
              rw [List.length_take, List.length_drop]
              omega
            · obtain ⟨hheadc, hstart_lt⟩ :=
                slice_headD S start (S.length - start) hne2
              rcases hhd with hstartlen | hwsstart | ⟨hs0, hacc0⟩
              · exact absurd (by rw [hstartlen]; simp) hne2
              · rw [hheadc, hwsstart] at hhead2
                exact Bool.noConfusion hhead2
              · rcases hacc0 with haccnil | ⟨hacc1, hB0⟩
                · exact absurd haccnil haccne2
                · rw [hg]
                  right; right
                  have h1 := slice_length_le S start (S.length - start)
                  have hBfb :
                      (if acc.length = 0 then first_budget k fb else fb) = fb := by
                    rw [hacc1]
                    rfl
                  rw [hBfb] at hlenle
                  refine ⟨by rw [hacc1]; rfl, hB0, ?_⟩
                  simp only [List.length_cons]
                  omega
      | brk fl np d =>
          rw [hscan] at hpost
          obtain ⟨hp1, hp2, hp3, hp4, hp5, hp6, hp7, hp8⟩ := hpost
          -- the fragment this iteration saves satisfies the width contract
          have hacc2 : ∀ j, j < (save_portion acc ((S.drop start).take fl)).length →
              frag_fits k fb j ((save_portion acc ((S.drop start).take fl)).getD j []) := by
            intro j hj
            rw [length_save_portion] at hj
            by_cases hjl : j < acc.length
            · rw [save_portion_getD_lt _ _ _ hjl]
              exact hacc j hjl
            · have hje : j = acc.length := by omega
              subst hje
              rcases save_portion_getD_last acc ((S.drop start).take fl) with
                hg | ⟨hg, hhead2, hne2, haccne2⟩
              · rw [hg]
                rcases hp6 with hb | hnws
                · left
                  have h1 := slice_length_le S start fl
                  simp only [frag_budget]
                  omega
                · right; left
                  intro c hc
                  obtain ⟨p, hpa, hpb, hcp⟩ := mem_slice_drop_one S start fl c hc
                  rw [hcp]
                  exact hnws p hpa hpb
              · obtain ⟨hheadc, hstart_lt⟩ := slice_headD S start fl hne2
                rcases hhd with hstartlen | hwsstart | ⟨hs0, hacc0⟩
                · exact absurd (by rw [hstartlen]; simp) hne2
                · rw [hheadc, hwsstart] at hhead2
                  exact Bool.noConfusion hhead2
                · rcases hacc0 with haccnil | ⟨hacc1, hB0⟩
                  · exact absurd haccnil haccne2
                  · rw [hg]
                    rcases hp6 with hb | hnws
                    · right; right
                      have h1 := slice_length_le S start fl
                      have hBfb :
                          (if acc.length = 0 then first_budget k fb else fb) = fb := by
                        rw [hacc1]
                        rfl
                      rw [hBfb] at hb
                      refine ⟨by rw [hacc1]; rfl, hB0, ?_⟩
                      simp only [List.length_cons]
                      omega
                    · right; left
                      intro c hc
                      simp only [List.drop_one, List.tail_cons] at hc
                      obtain ⟨p, hpa, hpb, hcp⟩ := mem_slice S start fl c hc
                      rw [hcp]
                      rcases Nat.eq_or_lt_of_le hpa with hpe | hplt2
                      · rw [← hpe, ← hheadc]
                        exact hhead2
                      · exact hnws p hplt2 hpb
          rw [fold_loop_succ_brk S fb k start resume acc.length acc n fl np d hscan] at h
          cases d with
          | true =>
              rw [if_pos rfl] at h
              injection h with hL
              subst hL
              have hnplen : np = S.length := hp3 rfl
              intro j hj
              rw [length_save_portion, length_save_portion] at hj
              by_cases hjl : j < acc.length + 1
              · rw [save_portion_getD_lt _ _ _ (by rw [length_save_portion]; omega)]
                exact hacc2 j (by rw [length_save_portion]; omega)
              · have hje : j = acc.length + 1 := by omega
                subst hje
                have hlen2 : acc.length + 1 =
                    (save_portion acc ((S.drop start).take fl)).length :=
                  (length_save_portion _ _).symm
                rw [hlen2]
                rcases save_portion_getD_last (save_portion acc ((S.drop start).take fl))
                    ((S.drop (start + fl)).take (np - (start + fl))) with
                  hg | ⟨hg, hhead2, hne2, _⟩
                · rw [hg]
                  right; left
                  intro c hc
                  obtain ⟨p, hpa, hpb, hcp⟩ :=
                    mem_slice_drop_one S (start + fl) (np - (start + fl)) c hc
                  rw [hcp]
                  exact hp8 p hpa (by omega)
                · -- the closing portion starts at the end of the buffer or at
                  -- whitespace, so no synthetic space is ever prepended to it
                  obtain ⟨hheadc, hstart_lt⟩ :=
                    slice_headD S (start + fl) (np - (start + fl)) hne2
                  rcases hp7 with h7 | h7 | ⟨hnp0, hs0, hfl0⟩
                  · exact absurd (by rw [h7]; simp) hne2
                  · rw [hheadc, h7] at hhead2
                    exact Bool.noConfusion hhead2
                  · exact absurd (by rw [hnp0, hs0, hfl0]; simp) hne2
          | false =>
              rw [if_neg (by decide)] at h
              have hacc2len :
                  (save_portion acc ((S.drop start).take fl)).length = acc.length + 1 :=
                length_save_portion _ _
              rw [← hacc2len] at h
              apply ih (start + fl) np (save_portion acc ((S.drop start).take fl)) L
                hp2 hp1 hp8 ?_ hacc2 h
              rcases hp7 with h7 | h7 | ⟨hnp0, hs0, hfl0⟩
              · exact Or.inl h7
              · exact Or.inr (Or.inl h7)
              · right
                rcases hp5 hnp0 with hbest0 | hws0
                · right
                  have hstart0 : start = 0 := by omega
                  have hB0' : (if acc.length = 0 then first_budget k fb else fb) = 0 := by
                    omega
                  have hacc0 : acc.length = 0 := by
                    by_contra hne
                    rw [if_neg hne] at hB0'
                    omega
                  have hB00 : first_budget k fb = 0 := by
                    rw [if_pos hacc0] at hB0'
                    exact hB0'
                  refine ⟨by omega, Or.inr ⟨?_, hB00⟩⟩
                  rw [List.length_eq_zero.mp hacc0, hfl0]
                  rfl
                · left
                  have hsf : start + fl = 0 := by omega
                  rw [hsf]
                  exact hws0

/-- Claim C2 (amended): every fragment of a terminating fold fits its
physical line up to the two documented exceptions: an unbreakable token
(preceded by at most the one break/synthetic space) is emitted whole and may
overrun, and when the first-line budget is zero the second fragment may
exceed the boundary by exactly the one synthetic space. -/
theorem value_fold_fragment_fits (S : List Char) (k b : Nat)
    (L : List (List Char)) (h : value_fold S k b = some L) :
    ∀ j, j < L.length → frag_fits k (normalize_bound b) j (L.getD j []) := by
  have hfb : 1 ≤ normalize_bound b := by
    unfold normalize_bound
    split <;> omega
  exact fold_loop_fits S (normalize_bound b) k hfb (S.length + 2) 0 0 [] L
    (by omega) (by omega) (fun p hp1 hp2 => absurd hp2 (by omega))
    (Or.inr (Or.inr ⟨rfl, Or.inl rfl⟩))
    (fun j hj => absurd hj (by simp)) h

/-- Claim C2, counterexample: fold `"a bbbbb"` with key length `1` and
boundary `5`.  The second fragment `" bbbbb"` is `6 > 5` bytes long, yet it
is not a whitespace-free token wider than the budget — its whitespace-free
tokens have width `5 = boundary` — so the claim's only allowed exception does
not apply; the break space pushed the line one byte over the boundary. -/
theorem value_fold_width_counterexample :
    value_fold ("a bbbbb".toList) 1 5 =
      some [("a".toList), (" bbbbb".toList)] ∧
    ¬ ((" bbbbb".toList).length ≤ 5) ∧
    ¬ ((∀ c ∈ (" bbbbb".toList), is_space c = false) ∧
        5 < (" bbbbb".toList).length) := by
  exact ⟨by decide, by decide, by decide⟩

/-- Claim C2, witness: Scenario A's second fragment `" bbbb cccc"` satisfies
the amended width contract at key length `3`, boundary `10`. -/
theorem value_fold_fragment_fits_witness :
    value_fold ("aaaa bbbb cccc".toList) 3 10 =
      some [("aaaa".toList), (" bbbb cccc".toList)] ∧
    frag_fits 3 (normalize_bound 10) 1
      ([("aaaa".toList), (" bbbb cccc".toList)].getD 1 []) := by
  refine ⟨by decide, ?_⟩
  exact value_fold_fragment_fits ("aaaa bbbb cccc".toList) 3 10
    [("aaaa".toList), (" bbbb cccc".toList)] (by decide) 1 (by decide)

/-! ### Fold/unfold round trip on the inputs where the fold terminates -/

theorem value_unfold_eq_flatten (l : List (List Char)) :
    value_unfold l = l.flatten := by
  suffices hgen : ∀ init : List Char,
      l.foldl (fun acc part => acc ++ part) init = init ++ l.flatten by
    simpa using hgen []
  induction l with
  | nil => intro init; simp
  | cons x xs ih =>
      intro init
      simp only [List.foldl_cons, List.flatten_cons, ih, List.append_assoc]

theorem value_unfold_save (acc : List (List Char)) (r : List Char)
    (hnoadj : is_space (r.headD ' ') = true ∨ r = [] ∨ acc = []) :
    value_unfold (save_portion acc r) = value_unfold acc ++ r := by
  rcases save_portion_eq acc r with h | ⟨h, hhead, hne, haccne⟩
  · rw [h, value_unfold_eq_flatten, value_unfold_eq_flatten]
    simp
  · rcases hnoadj with h1 | h1 | h1
    · rw [h1] at hhead
      exact Bool.noConfusion hhead
    · exact absurd h1 hne
    · exact absurd h1 haccne

/-- Concatenation invariant of the fold loop: the fragments emitted so far
concatenate to the prefix of `S` already consumed, and — as long as the
first-line budget is not zero (or the buffer is empty) — `save_portion` never
prepends a synthetic space, because every later portion starts at the
whitespace byte the previous line broke at. -/
theorem fold_loop_concat (S : List Char) (fb k : Nat) (hfb : 1 ≤ fb)
    (hB : first_budget k fb ≠ 0 ∨ S = []) :
    ∀ fuel start resume acc L,
      resume ≤ S.length → start ≤ resume →
      (∀ p, start < p → p < resume → is_space (char_at S p) = false) →
      (start = S.length ∨ is_space (char_at S start) = true ∨
        (start = 0 ∧ acc = []) ∨ S = []) →
      value_unfold acc = S.take start →
      fold_loop S fb k start resume acc.length acc fuel = some L →
      value_unfold L = S := by
  intro fuel
  induction fuel with
  | zero =>
      intro start resume acc L _ _ _ _ _ h
      exact Option.noConfusion h
  | succ n ih =>
      intro start resume acc L hres hsr hnw hhd hcat h
      have hpost := fold_scan_sound S
        ((if acc.length = 0 then first_budget k fb else fb) + start) start
        (S.length + 1 - resume) resume start start (by omega) hres hsr
        (le_refl start) hsr (Nat.le_add_left start _) (Or.inl rfl) hnw
      cases hscan : fold_scan S
          ((if acc.length = 0 then first_budget k fb else fb) + start) start
          (S.length + 1 - resume) resume start start with
      | natural np =>
          rw [hscan] at hpost
          obtain ⟨hnp, hlenle, hlen0⟩ := hpost
          rw [fold_loop_succ_natural S fb k start resume acc.length acc n np hscan] at h
          injection h with hL
          subst hL
          subst hnp
          have hnoadj : is_space (((S.drop start).take (S.length - start)).headD ' ')
                = true ∨
              (S.drop start).take (S.length - start) = [] ∨ acc = [] := by
            rcases hhd with h1 | h1 | ⟨hs0, haccnil⟩ | hSnil
            · right; left
              rw [h1]
              simp
            · by_cases hre : (S.drop start).take (S.length - start) = []
              · right; left
                exact hre
              · left
                obtain ⟨hheadc, _⟩ := slice_headD S start (S.length - start) hre
                rw [hheadc]
                exact h1
            · right; right
              exact haccnil
            · right; left
              rw [hSnil]
              simp
          rw [value_unfold_save acc _ hnoadj, hcat, slice_full]
          exact List.take_append_drop start S
      | brk fl np d =>
          rw [hscan] at hpost
          obtain ⟨hp1, hp2, hp3, hp4, hp5, hp6, hp7, hp8⟩ := hpost
          have hnoadj1 : is_space (((S.drop start).take fl).headD ' ') = true ∨
              (S.drop start).take fl = [] ∨ acc = [] := by
            rcases hhd with h1 | h1 | ⟨hs0, haccnil⟩ | hSnil
            · right; left
              rw [h1]
              simp
            · by_cases hre : (S.drop start).take fl = []
              · right; left
                exact hre
              · left
                obtain ⟨hheadc, _⟩ := slice_headD S start fl hre
                rw [hheadc]
                exact h1
            · right; right
              exact haccnil
            · right; left
              rw [hSnil]
              simp
          have hcat2 : value_unfold (save_portion acc ((S.drop start).take fl)) =
              S.take (start + fl) := by
            rw [value_unfold_save acc _ hnoadj1, hcat, List.take_add]
          rw [fold_loop_succ_brk S fb k start resume acc.length acc n fl np d hscan] at h
          cases d with
          | true =>
              rw [if_pos rfl] at h
              injection h with hL
              subst hL
              have hnplen : np = S.length := hp3 rfl
              have hnoadj2 : is_space
                    (((S.drop (start + fl)).take (np - (start + fl))).headD ' ') = true ∨
                  (S.drop (start + fl)).take (np - (start + fl)) = [] ∨
                  save_portion acc ((S.drop start).take fl) = [] := by
                rcases hp7 with h7 | h7 | ⟨hnp0, hs0, hfl0⟩
                · right; left
                  rw [h7]
                  simp
                · by_cases hre : (S.drop (start + fl)).take (np - (start + fl)) = []
                  · right; left
                    exact hre
                  · left
                    obtain ⟨hheadc, _⟩ :=
                      slice_headD S (start + fl) (np - (start + fl)) hre
                    rw [hheadc]
                    exact h7
                · right; left
                  rw [hnp0, hs0, hfl0]
                  simp
              rw [value_unfold_save _ _ hnoadj2, hcat2, hnplen, slice_full]
              exact List.take_append_drop (start + fl) S
          | false =>
              rw [if_neg (by decide)] at h
              rw [← length_save_portion acc ((S.drop start).take fl)] at h
              apply ih (start + fl) np (save_portion acc ((S.drop start).take fl)) L
                hp2 hp1 hp8 ?_ hcat2 h
              rcases hp7 with h7 | h7 | ⟨hnp0, hs0, hfl0⟩
              · exact Or.inl h7
              · exact Or.inr (Or.inl h7)
              · rcases hp5 hnp0 with hbest0 | hws0
                · rcases hB with hB0ne | hSnil
                  · have hB0' :
                        (if acc.length = 0 then first_budget k fb else fb) = 0 := by
                      omega
                    by_cases hacc0 : acc.length = 0
                    · rw [if_pos hacc0] at hB0'
                      exact absurd hB0' hB0ne
                    · rw [if_neg hacc0] at hB0'
                      exact absurd hB0' (by omega)
                  · exact Or.inr (Or.inr (Or.inr hSnil))
                · exact Or.inr (Or.inl (by
                    rw [show start + fl = 0 by omega]
                    exact hws0))

/-- Companion to the C1 finding: wherever the fold loop terminates — in
particular whenever the first-line budget is positive, and also for the empty
value — unfolding the produced fragments reproduces the canonical string byte
for byte: no bytes are dropped or invented. -/
theorem value_fold_unfold_roundtrip (S : List Char) (k b : Nat)
    (L : List (List Char))
    (hB : first_budget k (normalize_bound b) ≠ 0 ∨ S = [])
    (h : value_fold S k b = some L) :
    value_unfold L = S := by
  have hfb : 1 ≤ normalize_bound b := by
    unfold normalize_bound
    split <;> omega
  exact fold_loop_concat S (normalize_bound b) k hfb hB (S.length + 2) 0 0 [] L
    (by omega) (by omega) (fun p hp1 hp2 => absurd hp2 (by omega))
    (Or.inr (Or.inr (Or.inl ⟨rfl, rfl⟩)))
    (by simp [value_unfold])
    h

/-! ### Folds that need no break -/

/-- When the whole buffer is shorter than the scan's width limit and does not
begin with whitespace, the scan never breaks: it runs to `i = len` and exits
through the non-breaking branch. -/
theorem fold_scan_stays (S : List Char) (best : Nat) (hbig : S.length < best)
    (hlen0 : S.length ≠ 0) (hh : is_space (char_at S 0) = false) :
    ∀ fuel i fp np, S.length + 1 ≤ fuel + i → i ≤ S.length →
      fold_scan S best 0 fuel i fp np = ScanResult.natural S.length := by
  intro fuel
  induction fuel with
  | zero =>
      intro i fp np hfuel hi
      exact absurd hi (by omega)
  | succ n ih =>
      intro i fp np hfuel hi
      by_cases hil : i < S.length
      · simp only [fold_scan]
        rw [dif_pos hil]
        by_cases hws : is_space (char_at S i) = true
        · have hi0 : i ≠ 0 := by
            intro h0
            rw [h0] at hws
            rw [hws] at hh
            exact Bool.noConfusion hh
          rw [if_pos (Or.inl hws), if_neg (by omega)]
          exact ih (i + 1) i i (by omega) (by omega)
        · rw [if_neg ?_]
          · exact ih (i + 1) fp np (by omega) (by omega)
          · rintro (hcontra | ⟨hb0, _⟩)
            · exact hws hcontra
            · omega
      · simp only [fold_scan]
        rw [dif_neg hil, if_neg (by omega)]

/-- Claim C9 (amended): a non-empty value that is shorter than the (positive)
first-line budget and does not begin with whitespace folds to exactly one
fragment: the whole value. -/
theorem value_fold_single_fragment (S : List Char) (k b : Nat)
    (hne : S ≠ []) (hh : is_space (char_at S 0) = false)
    (hlen : S.length < first_budget k b) :
    value_fold S k b = some [S] := by
  have hlp : 0 < S.length := List.length_pos.mpr hne
  have hbne : b ≠ 0 := by
    intro h0
    rw [h0] at hlen
    simp [first_budget] at hlen
  have hnb : normalize_bound b = b := by
    simp [normalize_bound, hbne]
  have hscan : fold_scan S ((if (0 : Nat) = 0 then first_budget k b else b) + 0) 0
      (S.length + 1 - 0) 0 0 0 = ScanResult.natural S.length := by
    apply fold_scan_stays S _ (by simpa using hlen) (by omega) hh
    · omega
    · omega
  have hstep := fold_loop_succ_natural S b k 0 0 0 [] (S.length + 1) S.length hscan
  show fold_loop S (normalize_bound b) k 0 0 0 [] (S.length + 2) = some [S]
  rw [hnb]
  rw [show S.length + 2 = S.length + 1 + 1 from rfl, hstep]
  simp [save_portion, is_space]

/-- Claim C9, counterexample: the value `" a"` is non-empty and much shorter
than the first-line budget `boundary - key_length - 3 = 94`, yet folding it
does not produce the single fragment `" a"`: the loop never terminates on a
leading-whitespace value (`value_fold` reports `none`). -/
theorem value_fold_single_fragment_counterexample :
    value_fold ((' ' : Char) :: ['a']) 3 100 = none ∧
    ((' ' : Char) :: ['a']).length < first_budget 3 100 ∧
    ¬ (value_fold ((' ' : Char) :: ['a']) 3 100 = some [(' ' : Char) :: ['a']]) := by
  exact ⟨by decide, by decide, by decide⟩

/-- Claim C9, witness: Scenario B — `"short"` with key length `3`, boundary
`100` folds to the single fragment `"short"` and serializes with key `"foo"`
as `"foo = short"` plus one terminator. -/
theorem value_fold_single_fragment_witness :
    value_fold ("short".toList) 3 100 = some [("short".toList)] ∧
    (value_create_new ("short".toList) 5 1 3 100 none).map
        (fun vo => value_serialize vo ("foo".toList)) =
      some ("foo = short\n".toList) := by
  refine ⟨?_, by decide⟩
  exact value_fold_single_fragment ("short".toList) 3 100 (by decide) (by decide)
    (by decide)

/-- Claim C5, counterexample: folding the empty canonical string with key
length `3` and boundary `10` yields two fragments, not one — the `break` out
of the scan saves a first empty portion and the `if (done)` epilogue saves a
second one. -/
theorem value_fold_empty_not_single :
    value_fold ([] : List Char) 3 10 = some [[], []] ∧
    ([[], []] : List (List Char)).length ≠ 1 := by
  exact ⟨by decide, by decide⟩

/-- Claim C5 (amended): for every key length and boundary, folding the empty
canonical string produces exactly two fragments, both of length `0`. -/
theorem value_fold_empty (k b : Nat) :
    value_fold ([] : List Char) k b = some [[], []] := by
  simp [value_fold, fold_loop, fold_scan, save_portion, is_space, normalize_bound]

/-- Claim C1: the code, not the claim, is at fault.  On the value `" a"`
(whose only whitespace-free token `"a"` fits both budgets, so the claim's
hypothesis holds at key length `3`, boundary `10`), the folding loop never
terminates: it breaks at offset `0`, saves an empty portion, sets
`resume_place` back to `0` and repeats.  The second conjunct shows the loop
state recurs for every `idx ≥ 1` and every fragment accumulator, so no amount
of fuel produces a fragment sequence; `value_fold` returns `none`. -/
theorem value_fold_leading_space_diverges :
    value_fold ((' ' : Char) :: ['a']) 3 10 = none ∧
    ∀ (fuel idx : Nat) (acc : List (List Char)),
      fold_loop ((' ' : Char) :: ['a']) 10 3 0 0 (idx + 1) acc fuel = none := by
  have key : ∀ (fuel idx : Nat) (acc : List (List Char)),
      fold_loop ((' ' : Char) :: ['a']) 10 3 0 0 (idx + 1) acc fuel = none := by
    intro fuel
    induction fuel with
    | zero => intro idx acc; rfl
    | succ n ih =>
        intro idx acc
        have step : fold_loop ((' ' : Char) :: ['a']) 10 3 0 0 (idx + 1) acc (n + 1) =
            fold_loop ((' ' : Char) :: ['a']) 10 3 0 0 (idx + 1 + 1) (acc ++ [[]]) n := rfl
        rw [step]
        exact ih (idx + 1) (acc ++ [[]])
  refine ⟨?_, key⟩
  have step0 : value_fold ((' ' : Char) :: ['a']) 3 10 =
      fold_loop ((' ' : Char) :: ['a']) 10 3 0 0 1 [[]] 3 := rfl
  rw [step0]
  exact key 3 0 [[]]

/-- Claim C4: Scenario A.  Folding `"aaaa bbbb cccc"` with key length `3` and
boundary `10` yields exactly `["aaaa", " bbbb cccc"]`; unfolding those
fragments reproduces the value byte for byte; and serializing the value
object built from that string with key `"foo"` and no comment yields
`"foo = aaaa"`, a terminator, `" bbbb cccc"`, a terminator. -/
theorem scenario_basic_fold :
    value_fold ("aaaa bbbb cccc".toList) 3 10 =
      some [("aaaa".toList), (" bbbb cccc".toList)] ∧
    value_unfold [("aaaa".toList), (" bbbb cccc".toList)] = ("aaaa bbbb cccc".toList) ∧
    (value_create_new ("aaaa bbbb cccc".toList) 14 1 3 10 none).map
        (fun vo => value_serialize vo ("foo".toList)) =
      some ("foo = aaaa\n bbbb cccc\n".toList) := by
  exact ⟨by decide, by decide, by decide⟩

/-- Claim C6: a successful `value_update` stores exactly the fragments a
fresh fold of the new string (at the object's key length and the new
boundary) produces — `value_fold` resets the fragment arrays first, so
nothing of the previous value survives — and stores the new canonical bytes,
origin and boundary while keeping the key length, source line and comment. -/
theorem value_update_refolds (vo : value_obj) (v : List Char) (l o b : Nat)
    (vo' : value_obj) (h : value_update vo v l o b = some vo') :
    value_fold (v.take l) vo.keylen b = some vo'.raw_lines ∧
    vo'.unfolded = v.take l ∧ vo'.keylen = vo.keylen ∧ vo'.origin = o ∧
    vo'.boundary = b ∧ vo'.line = vo.line ∧ vo'.ic = vo.ic := by
  cases hf : value_fold (v.take l) vo.keylen b with
  | none =>
      simp only [value_update, hf] at h
      exact Option.noConfusion h
  | some frags =>
      simp only [value_update, hf, Option.some.injEq] at h
      subst h
      exact ⟨rfl, rfl, rfl, rfl, rfl, rfl, rfl⟩

/-- Claim C6, witness: updating a value object that held `"a"` (boundary
`10`) to `"aaaa bbbb cccc"` with boundary `20` stores exactly the fragments a
fresh fold at boundary `20` produces. -/
theorem value_update_refolds_witness :
    value_update ⟨[['a']], ['a'], 1, 0, 3, 10, none⟩ ("aaaa bbbb cccc".toList) 14 2 20 =
      some ⟨[("aaaa bbbb cccc".toList)], ("aaaa bbbb cccc".toList), 2, 0, 3, 20, none⟩ ∧
    value_fold (("aaaa bbbb cccc".toList).take 14) 3 20 =
      some [("aaaa bbbb cccc".toList)] := by
  refine ⟨by decide, ?_⟩
  exact (value_update_refolds ⟨[['a']], ['a'], 1, 0, 3, 10, none⟩
    ("aaaa bbbb cccc".toList) 14 2 20
    ⟨[("aaaa bbbb cccc".toList)], ("aaaa bbbb cccc".toList), 2, 0, 3, 20, none⟩
    (by decide)).1

/-- Claim C7: a successful `value_set_keylen` stores the new key length and
the fragments of a fresh fold of the existing canonical buffer at the new key
length and the existing boundary, leaving the canonical bytes, origin, source
line, boundary and comment untouched. -/
theorem value_set_keylen_spec (vo : value_obj) (kl : Nat) (vo' : value_obj)
    (h : value_set_keylen vo kl = some vo') :
    vo'.keylen = kl ∧
    value_fold vo.unfolded kl vo.boundary = some vo'.raw_lines ∧
    vo'.unfolded = vo.unfolded ∧ vo'.origin = vo.origin ∧ vo'.line = vo.line ∧
    vo'.boundary = vo.boundary ∧ vo'.ic = vo.ic := by
  cases hf : value_fold vo.unfolded kl vo.boundary with
  | none =>
      simp only [value_set_keylen, hf] at h
      exact Option.noConfusion h
  | some frags =>
      simp only [value_set_keylen, hf, Option.some.injEq] at h
      subst h
      exact ⟨rfl, rfl, rfl, rfl, rfl, rfl, rfl⟩

/-- Claim C7, witness: shrinking the key length of the Scenario A object from
`3` to `2` refolds `"aaaa bbbb cccc"` at the new first-line budget and keeps
the canonical bytes, origin, line, boundary and comment unchanged. -/
theorem value_set_keylen_spec_witness :
    value_set_keylen
        ⟨[("aaaa".toList), (" bbbb cccc".toList)], ("aaaa bbbb cccc".toList),
          1, 7, 3, 10, none⟩ 2 =
      some ⟨[("aaaa".toList), (" bbbb cccc".toList)], ("aaaa bbbb cccc".toList),
          1, 7, 2, 10, none⟩ ∧
    value_fold ("aaaa bbbb cccc".toList) 2 10 =
      some [("aaaa".toList), (" bbbb cccc".toList)] := by
  refine ⟨by decide, ?_⟩
  exact (value_set_keylen_spec
    ⟨[("aaaa".toList), (" bbbb cccc".toList)], ("aaaa bbbb cccc".toList),
      1, 7, 3, 10, none⟩ 2
    ⟨[("aaaa".toList), (" bbbb cccc".toList)], ("aaaa bbbb cccc".toList),
      1, 7, 2, 10, none⟩ (by decide)).2.1

/-- Claim C3: serialization produces exactly the comment lines (each followed
by one terminator, nothing when no comment is attached), then the key bytes,
then `" = "`, then each fragment followed by one terminator — provided the
caller passes a key whose length is the stored `keylen`, since the serializer
writes `keylen` bytes of the key argument. -/
theorem value_serialize_layout (vo : value_obj) (key : List Char)
    (h : key.length = vo.keylen) :
    value_serialize vo key =
      ((vo.ic.getD []).map (fun l => l ++ [line_term])).flatten ++ key ++
        [' ', '=', ' '] ++
        (vo.raw_lines.map (fun l => l ++ [line_term])).flatten := by
  obtain ⟨rl, unf, o, ln, klen, bd, ic⟩ := vo
  simp only at h
  cases ic with
  | none =>
      simp [value_serialize, add_lines_with_term_eq_join,
        List.take_of_length_le (Nat.le_of_eq h)]
  | some comment =>
      simp [value_serialize, add_lines_with_term_eq_join,
        List.take_of_length_le (Nat.le_of_eq h)]

/-- Claim C3, witness: Scenario C — a value with an attached 2-line comment
and single fragment `"x"` serializes as the two comment lines (each with a
terminator) followed by `"key = x"` and a terminator. -/
theorem value_serialize_layout_witness :
    value_serialize
        ⟨[['x']], ['x'], 0, 0, 3, 10, some [("; one".toList), ("; two".toList)]⟩
        ("key".toList) =
      ("; one\n; two\nkey = x\n".toList) := by
  exact (value_serialize_layout
    ⟨[['x']], ['x'], 0, 0, 3, 10, some [("; one".toList), ("; two".toList)]⟩
    ("key".toList) (by decide)).trans (by decide)

/-- Claim C10: serialization writes exactly `keylen` bytes of the supplied
key argument.  Appending extra bytes to a key that already has at least
`keylen` bytes does not change the output, the key portion of the output is
`key.take keylen`, and that portion has exactly `keylen` bytes. -/
theorem value_serialize_key_bytes (vo : value_obj) (key extra : List Char)
    (h : vo.keylen ≤ key.length) :
    value_serialize vo (key ++ extra) = value_serialize vo key ∧
    value_serialize vo key =
      ((vo.ic.getD []).map (fun l => l ++ [line_term])).flatten ++
        key.take vo.keylen ++ [' ', '=', ' '] ++
        (vo.raw_lines.map (fun l => l ++ [line_term])).flatten ∧
    (key.take vo.keylen).length = vo.keylen := by
  refine ⟨?_, ?_, ?_⟩
  · obtain ⟨rl, unf, o, ln, klen, bd, ic⟩ := vo
    simp only at h
    cases ic <;>
      simp [value_serialize, List.take_append_of_le_length h]
  · obtain ⟨rl, unf, o, ln, klen, bd, ic⟩ := vo
    cases ic <;> simp [value_serialize, add_lines_with_term_eq_join]
  · simp [List.length_take, Nat.min_eq_left h]

/-- Claim C10, witness: with stored key length `3`, the keys `"keyZ!!"` and
`"keyZ"` serialize identically, and only `"key"` appears in the output. -/
theorem value_serialize_key_bytes_witness :
    value_serialize ⟨[['x']], ['x'], 0, 0, 3, 10, none⟩
        (("keyZ".toList) ++ ("!!".toList)) =
      value_serialize ⟨[['x']], ['x'], 0, 0, 3, 10, none⟩ ("keyZ".toList) ∧
    value_serialize ⟨[['x']], ['x'], 0, 0, 3, 10, none⟩ ("keyZ".toList) =
      ("key = x\n".toList) := by
  refine ⟨?_, by decide⟩
  exact (value_serialize_key_bytes ⟨[['x']], ['x'], 0, 0, 3, 10, none⟩
    ("keyZ".toList) ("!!".toList) (by decide)).1

end IniValue
